import Mathlib

/- Verification of the stochastic-simulation Mandelbrot area estimator: a
shallow embedding of `notebooks/orthogonal_sampler.py` and
`notebooks/helpers.py`.  Real numbers are modelled by `ℚ`, numpy arrays by
lists, and the mutable result containers by explicit state passing. -/

namespace StochSim

/-- Runtime failures of the Python code as an explicit error type:
`zeroDivisionError` models Python's `ZeroDivisionError`, `indexError` an
out-of-bounds array access, `valueError` a failed numeric conversion (for
example `int(nan)`), and `exceptionRaised` an explicitly raised `Exception`
carrying its message. -/
inductive Err where
  | zeroDivisionError
  | indexError
  | valueError
  | exceptionRaised (msg : String)
  deriving DecidableEq, Repr

/-- The randomness source handed to `orthogonal_sampler_2d`.  The source code
calls `rng.shuffle` once per (column, level) pair in a fixed order and
`rng.uniform(size=oa.shape)` once, so the shuffle results are indexed
positionally by column and level and the uniform matrix by cell and column. -/
structure Rng where
  shuffle : Nat → Nat → List ℚ → List ℚ
  unif : Nat → Nat → ℚ

/-- A well-behaved randomness source: every shuffle returns a permutation of
its input and every uniform draw lies in `[0, 1)`. -/
def RngWf (rng : Rng) : Prop :=
  (∀ c k l, List.Perm (rng.shuffle c k l) l) ∧
    ∀ p c, 0 ≤ rng.unif p c ∧ rng.unif p c < 1

/-- `int(np.ceil(np.sqrt(n)))` for a nonnegative integer argument. -/
def ceilSqrt (n : Nat) : Nat :=
  if Nat.sqrt n * Nat.sqrt n = n then Nat.sqrt n else Nat.sqrt n + 1

/-- Level of cell `p` in column `c` of the orthogonal array
`oa = np.array(list(product(range(1, s+1), repeat=2)))`: the enumeration is
row-major over the Cartesian product, so column 0 holds `p / s + 1` and
column 1 holds `p % s + 1`. -/
def colLevel (s p c : Nat) : Nat :=
  if c = 0 then p / s + 1 else p % s + 1

/-- `np.where(oa[:,c] == k)[0]`: the sorted cell indices whose level in
column `c` equals `k`. -/
def idxList (s c k : Nat) : List Nat :=
  (List.range (s * s)).filter fun p => decide (colLevel s p c = k)

/-- The rank block `new_col` built for level `k` of a column: the `cnt`
values `(k-1)*s + 1 .. (k-1)*s + cnt`, as floats. -/
def rankBlock (s k cnt : Nat) : List ℚ :=
  (List.range cnt).map fun i => (((k - 1) * s + i + 1 : Nat) : ℚ)

/-- Entry `lh[p, c]` after the stratified rank assignment (before jitter):
cell `p` receives the element of the shuffled rank block of its level that
corresponds to its place among the cells sharing that level. -/
def lhEntry (rng : Rng) (s p c : Nat) : ℚ :=
  let k := colLevel s p c
  let is := idxList s c k
  (rng.shuffle c k (rankBlock s k is.length)).getD (is.indexOf p) 0

/-- Column `c` of the rank array `lh` before jitter, in cell order. -/
def colList (rng : Rng) (s c : Nat) : List ℚ :=
  (List.range (s * s)).map fun p => lhEntry rng s p c

/-- All entries of the filled rank array `lh`, feeding `np.max(lh)` (the
maximum does not depend on the enumeration order of the matrix). -/
def lhEntries (rng : Rng) (s : Nat) : List ℚ :=
  colList rng s 0 ++ colList rng s 1

/-- `np.max(lh)`: the maximum entry of the filled rank array — one scalar
shared by both columns. -/
def maxLh (rng : Rng) (s : Nat) : ℚ :=
  (lhEntries rng s).maximum.unbot' 0

/-- `(lh - samples)/np.max(lh)` at cell `p`, column `c`. -/
def jitterEntry (rng : Rng) (s p c : Nat) : ℚ :=
  (lhEntry rng s p c - rng.unif p c) / maxLh rng s

/-- `orthogonal_sampler_2d(rng, n_samples)` from
`notebooks/orthogonal_sampler.py`.  For `n_samples < 0`,
`int(np.ceil(np.sqrt(n_samples)))` raises (`int(nan)` is a `ValueError`);
for `n_samples = 0` the orthogonal array is empty and `oa.shape[1]` raises
an `IndexError`.  Otherwise the jittered rank array of shape `(s*s, 2)` is
returned. -/
def orthogonal_sampler_2d (rng : Rng) (n_samples : ℤ) : Except Err (List (ℚ × ℚ)) :=
  if n_samples < 0 then .error .valueError
  else
    let s := ceilSqrt n_samples.toNat
    if s = 0 then .error .indexError
    else .ok ((List.range (s * s)).map fun p => (jitterEntry rng s p 0, jitterEntry rng s p 1))

/-- `orthogonal_sampler(rng, lows, highs, n_samples)` from
`notebooks/helpers.py`: rescales the unit-square sample to the requested
bounds, coordinate by coordinate. -/
def orthogonal_sampler (rng : Rng) (lows highs : ℚ × ℚ) (n_samples : ℤ) :
    Except Err (List (ℚ × ℚ)) :=
  match orthogonal_sampler_2d rng n_samples with
  | .error e => .error e
  | .ok sample =>
    .ok (sample.map fun q =>
      ((highs.1 - lows.1) * q.1 + lows.1, (highs.2 - lows.2) * q.2 + lows.2))

/-- `qmc.scale(sample, lows, highs)`: affine rescaling of unit-square points. -/
def qmcScale (pts : List (ℚ × ℚ)) (lows highs : ℚ × ℚ) : List (ℚ × ℚ) :=
  pts.map fun q =>
    (lows.1 + (highs.1 - lows.1) * q.1, lows.2 + (highs.2 - lows.2) * q.2)

/-- The power-of-two check `m = np.log2(n_samples); np.mod(m, 1) == 0` of
`scrambled_sobol_sampler`: `some m` when `n_samples = 2 ^ m`, `none`
otherwise (including every `n_samples ≤ 0`, where `np.log2` yields `-inf` or
`nan` and the `mod 1` test fails). -/
def pow2Log (n : ℤ) : Option Nat :=
  if 0 < n ∧ 2 ^ Nat.log2 n.toNat = n.toNat then some (Nat.log2 n.toNat) else none

/-- `scrambled_sobol_sampler(rng, lows, highs, n_samples)` from
`notebooks/helpers.py`.  The Sobol point set itself comes from
`scipy.stats.qmc.Sobol` (external library); it is supplied as the parameter
`sobol`, mapping the exponent `m` to the `2 ^ m` generated unit-square
points. -/
def scrambled_sobol_sampler (sobol : Nat → List (ℚ × ℚ)) (lows highs : ℚ × ℚ)
    (n_samples : ℤ) : Except Err (List (ℚ × ℚ)) :=
  match pow2Log n_samples with
  | none => .error (.exceptionRaised "n_samples not a power of 2")
  | some m => .ok (qmcScale (sobol m) lows highs)

/-- A sampler as consumed by `Monte_carlo`: from the rng state and bounds,
produce the sample points (or fail) and the advanced rng state.  The state
type `σ` abstracts the mutable generator object that the Python code
threads through every call. -/
abbrev Sampler (σ : Type) : Type :=
  σ → ℚ × ℚ → ℚ × ℚ → ℤ → Except Err (List (ℚ × ℚ)) × σ

/-- `Monte_carlo(sample_size, max_iter, rng, sampler)` from
`notebooks/helpers.py`.  The escape-time classifier `f_c_cpp` (external
module `cpp_stoch`) is the parameter `f_c`, giving the iteration count `j`
for a point and an iteration budget.  A sampler returning fewer than
`sample_size` points would make `random_numbers[i]` raise an `IndexError`;
`sample_size = 0` reaches `samples_in_set/sample_size`, a
`ZeroDivisionError`. -/
def Monte_carlo {σ : Type} (sample_size max_iter : ℤ) (rng : σ) (sampler : Sampler σ)
    (f_c : ℚ × ℚ → ℤ → ℤ) : Except Err ℚ × σ :=
  let xlb : ℚ := -2
  let xub : ℚ := 1
  let ylb : ℚ := -1.12
  let yub : ℚ := 1.12
  match sampler rng (xlb, ylb) (xub, yub) sample_size with
  | (.error e, rng2) => (.error e, rng2)
  | (.ok pts, rng2) =>
    if sample_size.toNat ≤ pts.length then
      if sample_size = 0 then (.error .zeroDivisionError, rng2)
      else
        let samples_in_set := (pts.take sample_size.toNat).countP fun p =>
          f_c p max_iter == max_iter
        let fraction : ℚ := (samples_in_set : ℚ) / (sample_size : ℚ)
        (.ok ((xub - xlb) * (yub - ylb) * fraction), rng2)
    else (.error .indexError, rng2)

/-- Append one estimate to the result store at `key` (`d[key].append(a)`). -/
def appendAt (d : ℤ → List ℚ) (key : ℤ) (a : ℚ) : ℤ → List ℚ :=
  fun k => if k = key then d k ++ [a] else d k

/-- `I_iter_worker(q, d, sample_size, rng, sampler)` from
`notebooks/helpers.py`: drains a queue of `(max_iter, i)` tasks, storing
each estimate in `d[i]`.  The queue is modelled by the list of tasks this
worker dequeues, in order; the `queue.Empty` signal is the `[]` case, and an
estimate failure aborts the worker (uncaught in the source). -/
def I_iter_worker {σ : Type} (q : List (ℤ × ℤ)) (d : ℤ → List ℚ) (sample_size : ℤ)
    (rng : σ) (sampler : Sampler σ) (f_c : ℚ × ℚ → ℤ → ℤ) :
    Except Err ((ℤ → List ℚ) × σ) :=
  match q with
  | [] => .ok (d, rng)
  | (max_iter, i) :: rest =>
    match Monte_carlo sample_size max_iter rng sampler f_c with
    | (.error e, _) => .error e
    | (.ok a, rng2) => I_iter_worker rest (appendAt d i a) sample_size rng2 sampler f_c

/-- `S_iter_worker(q, d, max_iter, rng, sampler)` from `notebooks/helpers.py`:
drains a queue of `(sample_size, i)` tasks, storing each estimate in `d[i]`. -/
def S_iter_worker {σ : Type} (q : List (ℤ × ℤ)) (d : ℤ → List ℚ) (max_iter : ℤ)
    (rng : σ) (sampler : Sampler σ) (f_c : ℚ × ℚ → ℤ → ℤ) :
    Except Err ((ℤ → List ℚ) × σ) :=
  match q with
  | [] => .ok (d, rng)
  | (sample_size, i) :: rest =>
    match Monte_carlo sample_size max_iter rng sampler f_c with
    | (.error e, _) => .error e
    | (.ok a, rng2) => S_iter_worker rest (appendAt d i a) max_iter rng2 sampler f_c

/-- `N_iter_worker(q, d, sample_size, max_iter, rng, sampler)` from
`notebooks/helpers.py`: drains a queue of `(n_runs, i)` tasks; both
Monte Carlo parameters are fixed and each estimate is stored in
`d[n_runs]`. -/
def N_iter_worker {σ : Type} (q : List (ℤ × ℤ)) (d : ℤ → List ℚ)
    (sample_size max_iter : ℤ) (rng : σ) (sampler : Sampler σ)
    (f_c : ℚ × ℚ → ℤ → ℤ) : Except Err ((ℤ → List ℚ) × σ) :=
  match q with
  | [] => .ok (d, rng)
  | (n_runs, _i) :: rest =>
    match Monte_carlo sample_size max_iter rng sampler f_c with
    | (.error e, _) => .error e
    | (.ok a, rng2) =>
      N_iter_worker rest (appendAt d n_runs a) sample_size max_iter rng2 sampler f_c

/-- Deterministic randomness fixture: shuffles leave lists unchanged and all
uniform draws are `0` (a legal draw from `[0, 1)`). -/
def trivialRng : Rng where
  shuffle := fun _ _ l => l
  unif := fun _ _ => 0

/-- Stateless sampler fixture: always returns the single point `(0, 0)`. -/
def constSampler : Sampler Unit :=
  fun r _ _ _ => (.ok [(0, 0)], r)

/-- Classifier fixture: every point reports `0` iterations. -/
def zeroClassifier : ℚ × ℚ → ℤ → ℤ := fun _ _ => 0

/-- The empty result store. -/
def emptyStore : ℤ → List ℚ := fun _ => []

/-- The multiset `{1, ..., s²}` (as floats) that each rank column must
realize exactly. -/
def rankMultiset (s : Nat) : Multiset ℚ :=
  (Finset.Icc 1 (s * s)).val.map fun i : Nat => (i : ℚ)

/-! ## Basic facts -/

theorem trivialRng_wf : RngWf trivialRng :=
  ⟨fun _ _ _ => List.Perm.refl _, fun _ _ => ⟨le_refl 0, by norm_num [trivialRng]⟩⟩

theorem ceilSqrt_pos {n : Nat} (hn : 0 < n) : 0 < ceilSqrt n := by
  unfold ceilSqrt
  split
  · rename_i h
    rcases Nat.eq_zero_or_pos (Nat.sqrt n) with h0 | h1
    · rw [h0] at h
      omega
    · exact h1
  · exact Nat.succ_pos _

/-! ## C8: the Sobol sampler accepts exactly powers of two -/

theorem pow2Log_isSome_iff (n : ℤ) :
    (∃ m, pow2Log n = some m) ↔ ∃ k : Nat, n = 2 ^ k := by
  unfold pow2Log
  constructor
  · rintro ⟨m, hm⟩
    split at hm
    · rename_i h
      refine ⟨Nat.log2 n.toNat, ?_⟩
      have h1 : ((2 ^ Nat.log2 n.toNat : Nat) : ℤ) = (n.toNat : ℤ) := by
        exact_mod_cast congrArg (fun x : Nat => (x : ℤ)) h.2
      rw [Int.toNat_of_nonneg h.1.le] at h1
      exact_mod_cast h1.symm
    · exact absurd hm (by simp)
  · rintro ⟨k, rfl⟩
    have hpos : (0 : ℤ) < 2 ^ k := pow_pos (by norm_num) k
    have htn : ((2 : ℤ) ^ k).toNat = 2 ^ k := by
      have h2 : ((2 : ℤ) ^ k) = ((2 ^ k : Nat) : ℤ) := by push_cast; ring
      exact_mod_cast congrArg Int.toNat h2
    have hlog : Nat.log2 ((2 : ℤ) ^ k).toNat = k := by
      rw [htn, Nat.log2_eq_log_two, Nat.log_pow (by norm_num)]
    refine ⟨k, ?_⟩
    rw [if_pos ⟨hpos, by rw [hlog, htn]⟩, hlog]

theorem not_pow2_100 : ¬ ∃ k : Nat, (100 : ℤ) = 2 ^ k := by
  rintro ⟨k, hk⟩
  rcases le_or_lt k 6 with h | h
  · have : (2 : ℤ) ^ k ≤ 2 ^ 6 := pow_le_pow_right₀ (by norm_num) h
    norm_num at this
    omega
  · have : (2 : ℤ) ^ 7 ≤ 2 ^ k := pow_le_pow_right₀ (by norm_num) h
    norm_num at this
    omega

/-- Claim C8: `scrambled_sobol_sampler` fails with the raised invalid-argument
exception for every `n_samples` that is not a power of two and succeeds for
every `n_samples` that is a power of two; in particular it fails at
`n_samples = 100` and succeeds at `n_samples = 128`. -/
theorem sobol_pow2_check (sobol : Nat → List (ℚ × ℚ)) (lows highs : ℚ × ℚ) :
    (∀ n : ℤ,
      (∃ pts, scrambled_sobol_sampler sobol lows highs n = .ok pts) ↔
        ∃ k : Nat, n = 2 ^ k) ∧
    (∀ n : ℤ, (¬ ∃ k : Nat, n = 2 ^ k) →
      scrambled_sobol_sampler sobol lows highs n =
        .error (.exceptionRaised "n_samples not a power of 2")) ∧
    scrambled_sobol_sampler sobol lows highs 100 =
      .error (.exceptionRaised "n_samples not a power of 2") ∧
    (∃ pts, scrambled_sobol_sampler sobol lows highs 128 = .ok pts) := by
  have hiff : ∀ n : ℤ,
      (∃ pts, scrambled_sobol_sampler sobol lows highs n = .ok pts) ↔
        ∃ k : Nat, n = 2 ^ k := by
    intro n
    rw [← pow2Log_isSome_iff]
    unfold scrambled_sobol_sampler
    constructor
    · rintro ⟨pts, hpts⟩
      cases h : pow2Log n with
      | none => rw [h] at hpts; exact absurd hpts (by simp)
      | some m => exact ⟨m, rfl⟩
    · rintro ⟨m, hm⟩
      rw [hm]
      exact ⟨_, rfl⟩
  have herr : ∀ n : ℤ, (¬ ∃ k : Nat, n = 2 ^ k) →
      scrambled_sobol_sampler sobol lows highs n =
        .error (.exceptionRaised "n_samples not a power of 2") := by
    intro n hn
    rw [← pow2Log_isSome_iff] at hn
    unfold scrambled_sobol_sampler
    cases h : pow2Log n with
    | none => rfl
    | some m => exact absurd ⟨m, h⟩ hn
  refine ⟨hiff, herr, herr 100 not_pow2_100, (hiff 128).2 ⟨7, by norm_num⟩⟩

/-- Witness for C8: the concrete rejection at `n_samples = 100` and success at
`n_samples = 128`. -/
theorem sobol_pow2_check_witness :
    scrambled_sobol_sampler (fun _ => []) (0, 0) (1, 1) 100 =
        .error (.exceptionRaised "n_samples not a power of 2") ∧
      ∃ pts, scrambled_sobol_sampler (fun _ => []) (0, 0) (1, 1) 128 = .ok pts :=
  ⟨(sobol_pow2_check (fun _ => []) (0, 0) (1, 1)).2.1 100 not_pow2_100,
    ((sobol_pow2_check (fun _ => []) (0, 0) (1, 1)).1 128).2 ⟨7, by norm_num⟩⟩

/-! ## Monte_carlo: evaluation, validation, and fixed-classifier results -/

theorem Monte_carlo_ok_eval {σ : Type} (ss mi : ℤ) (hne : ss ≠ 0) (rng rng2 : σ)
    (sampler : Sampler σ) (pts : List (ℚ × ℚ)) (f_c : ℚ × ℚ → ℤ → ℤ)
    (hsamp : sampler rng (-2, -1.12) (1, 1.12) ss = (.ok pts, rng2))
    (hlen : ss.toNat ≤ pts.length) :
    Monte_carlo ss mi rng sampler f_c =
      (.ok (((1 : ℚ) - (-2)) * ((1.12 : ℚ) - (-1.12)) *
        (((pts.take ss.toNat).countP (fun p => f_c p mi == mi) : ℚ) / (ss : ℚ))), rng2) := by
  simp only [Monte_carlo]
  rw [hsamp]
  simp only [if_pos hlen, if_neg hne]

/-- Claim C3: for positive `sample_size` (and a sampler that succeeds with
enough points over the fixed bounds x ∈ [-2,1], y ∈ [-1.12,1.12]),
`Monte_carlo` returns the bounding-box area times the fraction of sampled
points whose classifier iteration count equals `max_iter` exactly; with a
classifier always reporting `max_iter` the result is exactly the box area,
and with a classifier always reporting escape before `max_iter` it is 0. -/
theorem monte_carlo_area (σ : Type) (ss mi : ℤ) (hss : 0 < ss) (rng rng2 : σ)
    (sampler : Sampler σ) (pts : List (ℚ × ℚ))
    (hsamp : sampler rng (-2, -1.12) (1, 1.12) ss = (.ok pts, rng2))
    (hlen : ss.toNat ≤ pts.length) :
    (∀ f_c, Monte_carlo ss mi rng sampler f_c =
      (.ok (((1 : ℚ) - (-2)) * ((1.12 : ℚ) - (-1.12)) *
        (((pts.take ss.toNat).countP (fun p => f_c p mi == mi) : ℚ) / (ss : ℚ))), rng2)) ∧
    Monte_carlo ss mi rng sampler (fun _ _ => mi) =
      (.ok (((1 : ℚ) - (-2)) * ((1.12 : ℚ) - (-1.12))), rng2) ∧
    ∀ f_c, (∀ p, f_c p mi < mi) →
      Monte_carlo ss mi rng sampler f_c = (.ok 0, rng2) := by
  have hne : ss ≠ 0 := hss.ne'
  have hgen : ∀ f_c, Monte_carlo ss mi rng sampler f_c =
      (.ok (((1 : ℚ) - (-2)) * ((1.12 : ℚ) - (-1.12)) *
        (((pts.take ss.toNat).countP (fun p => f_c p mi == mi) : ℚ) / (ss : ℚ))), rng2) :=
    fun f_c => Monte_carlo_ok_eval ss mi hne rng rng2 sampler pts f_c hsamp hlen
  refine ⟨hgen, ?_, ?_⟩
  · rw [hgen (fun _ _ => mi)]
    have hcount : (pts.take ss.toNat).countP (fun _ => mi == mi) =
        (pts.take ss.toNat).length :=
      List.countP_eq_length.2 fun a _ => by simp
    have hlen2 : (pts.take ss.toNat).length = ss.toNat := by
      rw [List.length_take]
      omega
    have hcast : ((ss.toNat : ℕ) : ℚ) = ((ss : ℤ) : ℚ) := by
      exact_mod_cast congrArg (fun z : ℤ => (z : ℚ)) (Int.toNat_of_nonneg hss.le)
    rw [hcount, hlen2, hcast, div_self (by exact_mod_cast hne), mul_one]
  · intro f_c hesc
    rw [hgen f_c]
    have hcount : (pts.take ss.toNat).countP (fun p => f_c p mi == mi) = 0 :=
      List.countP_eq_zero.2 fun a _ => by
        simpa using (hesc a).ne
    rw [hcount]
    norm_num

/-- Witness for C3 at concrete inputs: one sample point, classifier constantly
equal to the budget, result exactly the bounding-box area. -/
theorem monte_carlo_area_witness :
    Monte_carlo (σ := Unit) 1 1 () constSampler (fun _ _ => 1) =
      (.ok (((1 : ℚ) - (-2)) * ((1.12 : ℚ) - (-1.12))), ()) :=
  (monte_carlo_area Unit 1 1 (by norm_num) () () constSampler [(0, 0)] rfl
    (by decide)).2.1

/-- Counterexample to C6 as stated: `max_iter = 0` is not validated — with a
total classifier reporting `0` iterations the call returns the full box area
(fraction 1) instead of failing with an invalid-argument error. -/
theorem monte_carlo_no_max_iter_check :
    Monte_carlo (σ := Unit) 1 0 () constSampler zeroClassifier =
      (.ok (((1 : ℚ) - (-2)) * ((1.12 : ℚ) - (-1.12))), ()) := by
  have h := Monte_carlo_ok_eval (σ := Unit) 1 0 (by norm_num) () () constSampler
    [(0, 0)] zeroClassifier rfl (by decide)
  rw [h]
  norm_num [zeroClassifier]

/-- Claim C6 (amended): `Monte_carlo` performs no argument validation; a call
with `sample_size = 0` always fails (with the sampler's own error, or with
the `ZeroDivisionError` from `samples_in_set/sample_size` when the sampler
succeeds), while `max_iter ≤ 0` does not in itself cause any failure: with
any total classifier and a sampler that succeeds with enough points, the
estimate completes normally. -/
theorem monte_carlo_validation (σ : Type) (mi : ℤ) (rng : σ) (sampler : Sampler σ)
    (f_c : ℚ × ℚ → ℤ → ℤ) :
    (∃ e rng2, Monte_carlo 0 mi rng sampler f_c = (.error e, rng2)) ∧
    ∀ ss rng2 pts, 0 < ss → sampler rng (-2, -1.12) (1, 1.12) ss = (.ok pts, rng2) →
      ss.toNat ≤ pts.length → ∃ v, Monte_carlo ss mi rng sampler f_c = (.ok v, rng2) := by
  constructor
  · rcases hs : sampler rng (-2, -1.12) (1, 1.12) 0 with ⟨e | pts, rng2⟩
    · exact ⟨e, rng2, by simp [Monte_carlo, hs]⟩
    · exact ⟨.zeroDivisionError, rng2, by simp [Monte_carlo, hs]⟩
  · intro ss rng2 pts hss hsamp hlen
    exact ⟨_, Monte_carlo_ok_eval ss mi hss.ne' rng rng2 sampler pts f_c hsamp hlen⟩

/-- Witness for the amended C6: a concrete `max_iter = 5`, `sample_size = 1`
call completes, and the `sample_size = 0` failure case is exercised. -/
theorem monte_carlo_validation_witness :
    (∃ e rng2, Monte_carlo (σ := Unit) 0 5 () constSampler zeroClassifier =
      (.error e, rng2)) ∧
    ∃ v, Monte_carlo (σ := Unit) 1 5 () constSampler zeroClassifier = (.ok v, ()) :=
  ⟨(monte_carlo_validation Unit 5 () constSampler zeroClassifier).1,
    (monte_carlo_validation Unit 5 () constSampler zeroClassifier).2 1 () [(0, 0)]
      (by norm_num) rfl (by decide)⟩

/-! ## C7: orthogonal sampler failure behavior -/

/-- Claim C7: `orthogonal_sampler_2d` fails (raises) for every
`n_samples ≤ 0` — the behavior the spec's taxonomy calls `InvalidArgument` —
and for `n_samples > 0` returns normally, with no other runtime failure. -/
theorem orthogonal_sampler_2d_failure :
    (∀ (rng : Rng) (n : ℤ), n ≤ 0 → ∃ e, orthogonal_sampler_2d rng n = .error e) ∧
    ∀ (rng : Rng) (n : ℤ), 0 < n → ∃ pts, orthogonal_sampler_2d rng n = .ok pts := by
  constructor
  · intro rng n hn
    rcases lt_or_eq_of_le hn with hlt | heq
    · exact ⟨.valueError, by simp [orthogonal_sampler_2d, hlt]⟩
    · refine ⟨.indexError, ?_⟩
      have h0 : ceilSqrt (Int.toNat n) = 0 := by
        have : Int.toNat n = 0 := by omega
        rw [this]
        unfold ceilSqrt
        simp
      simp [orthogonal_sampler_2d, ← heq, h0]
  · intro rng n hn
    have htn : 0 < n.toNat := by omega
    have hs : ceilSqrt n.toNat ≠ 0 := (ceilSqrt_pos htn).ne'
    refine ⟨(List.range (ceilSqrt n.toNat * ceilSqrt n.toNat)).map
      (fun p => (jitterEntry rng (ceilSqrt n.toNat) p 0,
        jitterEntry rng (ceilSqrt n.toNat) p 1)), ?_⟩
    simp only [orthogonal_sampler_2d, if_neg (by omega : ¬ n < 0)]
    simp [hs]

/-- Witness for C7: concrete failures at `n_samples = -1` and `0`, success at
`n_samples = 1`. -/
theorem orthogonal_sampler_2d_failure_witness :
    (∃ e, orthogonal_sampler_2d trivialRng (-1) = .error e) ∧
    (∃ e, orthogonal_sampler_2d trivialRng 0 = .error e) ∧
    ∃ pts, orthogonal_sampler_2d trivialRng 1 = .ok pts :=
  ⟨orthogonal_sampler_2d_failure.1 trivialRng (-1) (by norm_num),
    orthogonal_sampler_2d_failure.1 trivialRng 0 (by norm_num),
    orthogonal_sampler_2d_failure.2 trivialRng 1 (by norm_num)⟩

/-! ## C4/C10: the worker loops -/

theorem I_iter_worker_cons_ok {σ : Type} {mi i ss : ℤ} {rest : List (ℤ × ℤ)}
    {d : ℤ → List ℚ} {rng rng2 : σ} {sampler : Sampler σ} {f_c : ℚ × ℚ → ℤ → ℤ}
    {a : ℚ} (h : Monte_carlo ss mi rng sampler f_c = (.ok a, rng2)) :
    I_iter_worker ((mi, i) :: rest) d ss rng sampler f_c =
      I_iter_worker rest (appendAt d i a) ss rng2 sampler f_c := by
  simp only [I_iter_worker]
  rw [h]

theorem I_iter_worker_count (σ : Type) (sampler : Sampler σ) (f_c : ℚ × ℚ → ℤ → ℤ)
    (ss : ℤ) :
    ∀ (q : List (ℤ × ℤ)) (d : ℤ → List ℚ) (rng : σ) d' rng2,
      I_iter_worker q d ss rng sampler f_c = .ok (d', rng2) →
      ∀ key, (d' key).length = (d key).length + q.countP (fun t => t.2 == key) := by
  intro q
  induction q with
  | nil =>
    intro d rng d' rng2 h key
    simp only [I_iter_worker, Except.ok.injEq, Prod.mk.injEq] at h
    rw [← h.1]
    simp
  | cons t rest ih =>
    obtain ⟨mi', i'⟩ := t
    intro d rng d' rng2 h key
    simp only [I_iter_worker] at h
    rcases hmc : Monte_carlo ss mi' rng sampler f_c with ⟨e | a, rng3⟩ <;> rw [hmc] at h
    · simp at h
    · have hrec := ih (appendAt d i' a) rng3 d' rng2 h key
      rw [hrec, List.countP_cons]
      by_cases hk : i' = key
      · subst hk
        simp [appendAt]
        omega
      · simp [appendAt, hk, Ne.symm hk]

theorem S_iter_worker_count (σ : Type) (sampler : Sampler σ) (f_c : ℚ × ℚ → ℤ → ℤ)
    (mi : ℤ) :
    ∀ (q : List (ℤ × ℤ)) (d : ℤ → List ℚ) (rng : σ) d' rng2,
      S_iter_worker q d mi rng sampler f_c = .ok (d', rng2) →
      ∀ key, (d' key).length = (d key).length + q.countP (fun t => t.2 == key) := by
  intro q
  induction q with
  | nil =>
    intro d rng d' rng2 h key
    simp only [S_iter_worker, Except.ok.injEq, Prod.mk.injEq] at h
    rw [← h.1]
    simp
  | cons t rest ih =>
    obtain ⟨ss', i'⟩ := t
    intro d rng d' rng2 h key
    simp only [S_iter_worker] at h
    rcases hmc : Monte_carlo ss' mi rng sampler f_c with ⟨e | a, rng3⟩ <;> rw [hmc] at h
    · simp at h
    · have hrec := ih (appendAt d i' a) rng3 d' rng2 h key
      rw [hrec, List.countP_cons]
      by_cases hk : i' = key
      · subst hk
        simp [appendAt]
        omega
      · simp [appendAt, hk, Ne.symm hk]

theorem N_iter_worker_count (σ : Type) (sampler : Sampler σ) (f_c : ℚ × ℚ → ℤ → ℤ)
    (ss mi : ℤ) :
    ∀ (q : List (ℤ × ℤ)) (d : ℤ → List ℚ) (rng : σ) d' rng2,
      N_iter_worker q d ss mi rng sampler f_c = .ok (d', rng2) →
      ∀ key, (d' key).length = (d key).length + q.countP (fun t => t.1 == key) := by
  intro q
  induction q with
  | nil =>
    intro d rng d' rng2 h key
    simp only [N_iter_worker, Except.ok.injEq, Prod.mk.injEq] at h
    rw [← h.1]
    simp
  | cons t rest ih =>
    obtain ⟨n', i'⟩ := t
    intro d rng d' rng2 h key
    simp only [N_iter_worker] at h
    rcases hmc : Monte_carlo ss mi rng sampler f_c with ⟨e | a, rng3⟩ <;> rw [hmc] at h
    · simp at h
    · have hrec := ih (appendAt d n' a) rng3 d' rng2 h key
      rw [hrec, List.countP_cons]
      by_cases hk : n' = key
      · subst hk
        simp [appendAt]
        omega
      · simp [appendAt, hk, Ne.symm hk]

/-- Claim C4: every worker terminates exactly on observing the empty queue
(returning the store unchanged), and a successful drain appends exactly one
scalar estimate per dequeued task under that task's grouping key — the
positional index `i` for the iteration-budget and sample-size sweeps, the
dequeued `n_runs` value for the varying-runs sweep. -/
theorem workers_drain_queue (σ : Type) (sampler : Sampler σ) (f_c : ℚ × ℚ → ℤ → ℤ) :
    (∀ d ss (rng : σ), I_iter_worker [] d ss rng sampler f_c = .ok (d, rng)) ∧
    (∀ (q : List (ℤ × ℤ)) d ss (rng : σ) d' rng2,
      I_iter_worker q d ss rng sampler f_c = .ok (d', rng2) →
      ∀ key, (d' key).length = (d key).length + q.countP (fun t => t.2 == key)) ∧
    (∀ d mi (rng : σ), S_iter_worker [] d mi rng sampler f_c = .ok (d, rng)) ∧
    (∀ (q : List (ℤ × ℤ)) d mi (rng : σ) d' rng2,
      S_iter_worker q d mi rng sampler f_c = .ok (d', rng2) →
      ∀ key, (d' key).length = (d key).length + q.countP (fun t => t.2 == key)) ∧
    (∀ d ss mi (rng : σ), N_iter_worker [] d ss mi rng sampler f_c = .ok (d, rng)) ∧
    ∀ (q : List (ℤ × ℤ)) d ss mi (rng : σ) d' rng2,
      N_iter_worker q d ss mi rng sampler f_c = .ok (d', rng2) →
      ∀ key, (d' key).length = (d key).length + q.countP (fun t => t.1 == key) :=
  ⟨fun _ _ _ => rfl,
    fun q d ss rng d' rng2 h => I_iter_worker_count σ sampler f_c ss q d rng d' rng2 h,
    fun _ _ _ => rfl,
    fun q d mi rng d' rng2 h => S_iter_worker_count σ sampler f_c mi q d rng d' rng2 h,
    fun _ _ _ _ => rfl,
    fun q d ss mi rng d' rng2 h => N_iter_worker_count σ sampler f_c ss mi q d rng d' rng2 h⟩

/-- Witness for C4: a two-task queue, both tasks keyed to slot 0, appends
exactly two estimates to slot 0. -/
theorem workers_drain_queue_witness :
    (appendAt (appendAt emptyStore 0 0) 0 0 0).length =
      (emptyStore 0).length + [((3 : ℤ), (0 : ℤ)), (4, 0)].countP (fun t => t.2 == 0) := by
  have hmc3 : Monte_carlo (σ := Unit) 1 3 () constSampler zeroClassifier = (.ok 0, ()) := by
    rw [Monte_carlo_ok_eval 1 3 (by norm_num) () () constSampler [(0, 0)]
      zeroClassifier rfl (by decide)]
    norm_num [zeroClassifier]
  have hmc4 : Monte_carlo (σ := Unit) 1 4 () constSampler zeroClassifier = (.ok 0, ()) := by
    rw [Monte_carlo_ok_eval 1 4 (by norm_num) () () constSampler [(0, 0)]
      zeroClassifier rfl (by decide)]
    norm_num [zeroClassifier]
  have h : I_iter_worker [((3 : ℤ), (0 : ℤ)), (4, 0)] emptyStore 1 () constSampler
      zeroClassifier = .ok (appendAt (appendAt emptyStore 0 0) 0 0, ()) := by
    rw [I_iter_worker_cons_ok hmc3, I_iter_worker_cons_ok hmc4]
    rfl
  exact (workers_drain_queue Unit constSampler zeroClassifier).2.1
    [(3, 0), (4, 0)] emptyStore 1 () (appendAt (appendAt emptyStore 0 0) 0 0) () h 0

/-- Claim C10: in `N_iter_worker` the dequeued `n_runs` value has no influence
on the computed estimate — two executions whose head tasks differ only in
`n_runs` (and whose rng states agree) append the identical scalar `A`;
`n_runs` determines only the store key under which `A` is recorded. -/
theorem n_iter_worker_key_independence (σ : Type) (ss mi : ℤ) (rng rng2 : σ)
    (sampler : Sampler σ) (f_c : ℚ × ℚ → ℤ → ℤ) (A : ℚ)
    (hmc : Monte_carlo ss mi rng sampler f_c = (.ok A, rng2)) :
    ∀ (a i b j : ℤ) (rest : List (ℤ × ℤ)) (d : ℤ → List ℚ),
      N_iter_worker ((a, i) :: rest) d ss mi rng sampler f_c =
        N_iter_worker rest (appendAt d a A) ss mi rng2 sampler f_c ∧
      N_iter_worker ((b, j) :: rest) d ss mi rng sampler f_c =
        N_iter_worker rest (appendAt d b A) ss mi rng2 sampler f_c := by
  intro a i b j rest d
  constructor <;> (simp only [N_iter_worker]; rw [hmc])

/-- Witness for C10 at a concrete task queue. -/
theorem n_iter_worker_key_independence_witness :
    N_iter_worker [((5 : ℤ), (0 : ℤ))] emptyStore 1 1 () constSampler zeroClassifier =
      N_iter_worker [] (appendAt emptyStore 5 0) 1 1 () constSampler zeroClassifier := by
  have hmc : Monte_carlo (σ := Unit) 1 1 () constSampler zeroClassifier = (.ok 0, ()) := by
    rw [Monte_carlo_ok_eval 1 1 (by norm_num) () () constSampler [(0, 0)]
      zeroClassifier rfl (by decide)]
    norm_num [zeroClassifier]
  exact (n_iter_worker_key_independence Unit 1 1 () () constSampler zeroClassifier 0 hmc
    5 0 7 1 [] emptyStore).1

/-! ## Stratification of the orthogonal-array ranks (C1, C9) -/

theorem one_le_colLevel (s p c : Nat) : 1 ≤ colLevel s p c := by
  unfold colLevel
  split <;> exact Nat.succ_le_succ (Nat.zero_le _)

theorem idxList_nodup (s c k : Nat) : (idxList s c k).Nodup :=
  (List.nodup_range _).filter _

theorem mem_idxList {s c k p : Nat} :
    p ∈ idxList s c k ↔ p < s * s ∧ colLevel s p c = k := by
  simp [idxList, List.mem_filter, List.mem_range]

theorem colLevel_lt {s p c : Nat} (hs : 0 < s) (hp : p < s * s) :
    colLevel s p c - 1 < s := by
  unfold colLevel
  split
  · have : p / s < s := (Nat.div_lt_iff_lt_mul hs).2 hp
    omega
  · have : p % s < s := Nat.mod_lt _ hs
    omega

theorem filter_level_card (s k c : Nat) (hk1 : 1 ≤ k) (hks : k ≤ s) :
    ((Finset.range (s * s)).filter fun p => colLevel s p c = k).card = s := by
  have hs : 0 < s := lt_of_lt_of_le hk1 hks
  have hmul : ∀ b : Nat, b < s → b * s + (k - 1) < s * s := by
    intro b hb
    have h1 : b * s + (k - 1) < (b + 1) * s := by
      have h0 : (b + 1) * s = b * s + s := by ring
      omega
    have h2 : (b + 1) * s ≤ s * s := Nat.mul_le_mul_right s (by omega)
    omega
  have hmul' : ∀ b : Nat, b < s → (k - 1) * s + b < s * s := by
    intro b hb
    have h1 : (k - 1) * s + b < ((k - 1) + 1) * s := by
      have h0 : ((k - 1) + 1) * s = (k - 1) * s + s := by ring
      omega
    have h2 : ((k - 1) + 1) * s ≤ s * s := Nat.mul_le_mul_right s (by omega)
    omega
  by_cases hc : c = 0
  · subst hc
    refine (Finset.card_nbij' (fun a => a % s) (fun b => (k - 1) * s + b)
      ?_ ?_ ?_ ?_).trans (Finset.card_range s)
    · intro a _
      exact Finset.mem_range.2 (Nat.mod_lt _ hs)
    · intro b hb
      have hb' : b < s := Finset.mem_range.1 hb
      have hdiv : ((k - 1) * s + b) / s = k - 1 := by
        rw [Nat.add_comm, Nat.add_mul_div_right _ _ hs, Nat.div_eq_of_lt hb']
        omega
      refine Finset.mem_filter.2 ⟨Finset.mem_range.2 (hmul' b hb'), ?_⟩
      simp only [colLevel, if_pos]
      omega
    · intro a ha
      obtain ⟨_, ha2⟩ := Finset.mem_filter.1 ha
      simp only [colLevel, if_pos] at ha2
      have hdiv : a / s = k - 1 := by omega
      have hdm := Nat.div_add_mod a s
      dsimp only
      calc (k - 1) * s + a % s = s * (a / s) + a % s := by rw [hdiv, Nat.mul_comm]
        _ = a := hdm
    · intro b hb
      have hb' : b < s := Finset.mem_range.1 hb
      dsimp only
      rw [Nat.add_comm, Nat.add_mul_mod_self_right, Nat.mod_eq_of_lt hb']
  · refine (Finset.card_nbij' (fun a => a / s) (fun b => b * s + (k - 1))
      ?_ ?_ ?_ ?_).trans (Finset.card_range s)
    · intro a ha
      obtain ⟨ha1, _⟩ := Finset.mem_filter.1 ha
      exact Finset.mem_range.2 ((Nat.div_lt_iff_lt_mul hs).2 (Finset.mem_range.1 ha1))
    · intro b hb
      have hb' : b < s := Finset.mem_range.1 hb
      have hmod : (b * s + (k - 1)) % s = k - 1 := by
        rw [Nat.add_comm, Nat.add_mul_mod_self_right, Nat.mod_eq_of_lt (by omega : k - 1 < s)]
      refine Finset.mem_filter.2 ⟨Finset.mem_range.2 (hmul b hb'), ?_⟩
      simp only [colLevel, if_neg hc]
      omega
    · intro a ha
      obtain ⟨_, ha2⟩ := Finset.mem_filter.1 ha
      simp only [colLevel, if_neg hc] at ha2
      have hmod : a % s = k - 1 := by omega
      have hdm := Nat.div_add_mod a s
      dsimp only
      calc a / s * s + (k - 1) = s * (a / s) + a % s := by rw [hmod, Nat.mul_comm]
        _ = a := hdm
    · intro b hb
      have hb' : b < s := Finset.mem_range.1 hb
      dsimp only
      rw [Nat.add_comm, Nat.add_mul_div_right _ _ hs, Nat.div_eq_of_lt (by omega : k - 1 < s)]
      omega

theorem idxList_coe (s c k : Nat) :
    (↑(idxList s c k) : Multiset Nat) =
      ((Finset.range (s * s)).filter fun p => colLevel s p c = k).val := rfl

theorem idxList_length (s c k : Nat) (hk1 : 1 ≤ k) (hks : k ≤ s) :
    (idxList s c k).length = s := by
  have h1 : (idxList s c k).length =
      Multiset.card (↑(idxList s c k) : Multiset Nat) := rfl
  rw [h1, idxList_coe]
  exact filter_level_card s k c hk1 hks

theorem map_getD_indexOf {α β : Type} [DecidableEq α] (is : List α) (l : List β)
    (dflt : β) (hnd : is.Nodup) (hlen : l.length = is.length) :
    is.map (fun p => l.getD (is.indexOf p) dflt) = l := by
  apply List.ext_getElem
  · simp [hlen]
  · intro t h1 h2
    have ht : t < is.length := by simpa using h1
    have ht' : t < l.length := by omega
    simp only [List.getElem_map]
    rw [List.indexOf_getElem hnd t ht]
    simp [List.getD_eq_getElem?_getD, List.getElem?_eq_getElem ht']

theorem entries_at_level (rng : Rng) (hwf : RngWf rng) (s k c : Nat) :
    (idxList s c k).map (fun p => lhEntry rng s p c) =
      rng.shuffle c k (rankBlock s k (idxList s c k).length) := by
  have hlen : (rng.shuffle c k (rankBlock s k (idxList s c k).length)).length =
      (idxList s c k).length := by
    rw [(hwf.1 c k _).length_eq]
    simp [rankBlock]
  have hentry : ∀ p ∈ idxList s c k, lhEntry rng s p c =
      (rng.shuffle c k (rankBlock s k (idxList s c k).length)).getD
        ((idxList s c k).indexOf p) 0 := by
    intro p hp
    have hcl : colLevel s p c = k := (mem_idxList.1 hp).2
    simp only [lhEntry, hcl]
  rw [List.map_congr_left hentry]
  exact map_getD_indexOf _ _ 0 (idxList_nodup s c k) hlen

theorem sum_singleton_map {α β : Type} (F : Finset α) (f : α → β) :
    (∑ p ∈ F, ({f p} : Multiset β)) = F.val.map f := by
  induction F using Finset.cons_induction with
  | empty => simp
  | cons a s ha ih =>
    rw [Finset.sum_cons, ih, Finset.cons_val, Multiset.map_cons, ← Multiset.singleton_add]

theorem multiset_range_add (a b : Nat) :
    Multiset.range (a + b) =
      Multiset.range a + Multiset.map (fun i => a + i) (Multiset.range b) := by
  rw [← Multiset.coe_range, List.range_add, ← Multiset.coe_add, ← Multiset.coe_range,
    ← Multiset.coe_range, ← Multiset.map_coe]

theorem range_mul_decomp (s : Nat) :
    ∀ m : Nat, Multiset.range (m * s) =
      ∑ b ∈ Finset.range m, Multiset.map (fun i => b * s + i) (Multiset.range s)
  | 0 => by simp
  | m + 1 => by
    rw [Finset.sum_range_succ, ← range_mul_decomp s m]
    have h1 : (m + 1) * s = m * s + s := by ring
    rw [h1, multiset_range_add]

theorem range_map_fiber_decomp (s : Nat) (hs : 0 < s) (c : Nat) (g : Nat → ℚ) :
    Multiset.map g (Multiset.range (s * s)) =
      ∑ b ∈ Finset.range s,
        (((Finset.range (s * s)).filter fun p => colLevel s p c = b + 1).val.map g) := by
  have hmaps : ∀ p ∈ Finset.range (s * s), colLevel s p c - 1 ∈ Finset.range s := by
    intro p hp
    exact Finset.mem_range.2 (colLevel_lt hs (Finset.mem_range.1 hp))
  have h := Finset.sum_fiberwise_of_maps_to (t := Finset.range s)
    (g := fun p => colLevel s p c - 1) hmaps (fun p => ({g p} : Multiset ℚ))
  have h2 : ∀ b ∈ Finset.range s,
      ((Finset.range (s * s)).filter fun p => colLevel s p c - 1 = b) =
        ((Finset.range (s * s)).filter fun p => colLevel s p c = b + 1) := by
    intro b _
    apply Finset.filter_congr
    intro p _
    have h1 := one_le_colLevel s p c
    constructor
    · intro hb
      simp only [decide_eq_true_eq] at *
      omega
    · intro hb
      simp only [decide_eq_true_eq] at *
      omega
  calc Multiset.map g (Multiset.range (s * s))
      = (Finset.range (s * s)).val.map g := by rw [Finset.range_val]
    _ = ∑ p ∈ Finset.range (s * s), ({g p} : Multiset ℚ) := (sum_singleton_map _ _).symm
    _ = ∑ b ∈ Finset.range s, ∑ p ∈ (Finset.range (s * s)).filter
          (fun p => colLevel s p c - 1 = b), ({g p} : Multiset ℚ) := h.symm
    _ = ∑ b ∈ Finset.range s, ∑ p ∈ (Finset.range (s * s)).filter
          (fun p => colLevel s p c = b + 1), ({g p} : Multiset ℚ) := by
        refine Finset.sum_congr rfl fun b hb => ?_
        rw [h2 b hb]
    _ = ∑ b ∈ Finset.range s,
          (((Finset.range (s * s)).filter fun p => colLevel s p c = b + 1).val.map g) := by
        refine Finset.sum_congr rfl fun b _ => ?_
        exact sum_singleton_map _ _

theorem colList_coe (rng : Rng) (s c : Nat) :
    (↑(colList rng s c) : Multiset ℚ) =
      Multiset.map (fun p => lhEntry rng s p c) (Multiset.range (s * s)) := by
  rw [colList, ← Multiset.map_coe, Multiset.coe_range]

theorem colList_multiset (rng : Rng) (hwf : RngWf rng) (s : Nat) (hs : 0 < s) (c : Nat) :
    (↑(colList rng s c) : Multiset ℚ) =
      ∑ b ∈ Finset.range s, (↑(rankBlock s (b + 1) s) : Multiset ℚ) := by
  rw [colList_coe, range_map_fiber_decomp s hs c]
  refine Finset.sum_congr rfl fun b hb => ?_
  have hb' : b < s := Finset.mem_range.1 hb
  have hk1 : 1 ≤ b + 1 := Nat.succ_le_succ (Nat.zero_le _)
  have hks : b + 1 ≤ s := hb'
  rw [← idxList_coe, Multiset.map_coe, entries_at_level rng hwf s (b + 1) c,
    Multiset.coe_eq_coe.2 (hwf.1 c (b + 1) _), idxList_length s c (b + 1) hk1 hks]

theorem rankBlock_coe (s b : Nat) :
    (↑(rankBlock s (b + 1) s) : Multiset ℚ) =
      Multiset.map (fun i => ((b * s + i + 1 : Nat) : ℚ)) (Multiset.range s) := by
  rw [rankBlock, ← Multiset.map_coe, Multiset.coe_range]
  simp

theorem sum_rankBlock (s : Nat) :
    (∑ b ∈ Finset.range s, (↑(rankBlock s (b + 1) s) : Multiset ℚ)) =
      Multiset.map (fun i => ((i + 1 : Nat) : ℚ)) (Multiset.range (s * s)) := by
  have h1 : ∀ b ∈ Finset.range s, (↑(rankBlock s (b + 1) s) : Multiset ℚ) =
      Multiset.map (fun i => ((i + 1 : Nat) : ℚ))
        (Multiset.map (fun i => b * s + i) (Multiset.range s)) := by
    intro b _
    rw [rankBlock_coe, Multiset.map_map]
    rfl
  rw [Finset.sum_congr rfl h1]
  have h3 := map_sum (Multiset.mapAddMonoidHom fun i : Nat => ((i + 1 : Nat) : ℚ))
    (fun b => Multiset.map (fun i => b * s + i) (Multiset.range s)) (Finset.range s)
  simp only [Multiset.coe_mapAddMonoidHom] at h3
  rw [← h3, ← range_mul_decomp s s]

theorem rankMultiset_eq (s : Nat) :
    rankMultiset s = Multiset.map (fun i => ((i + 1 : Nat) : ℚ)) (Multiset.range (s * s)) := by
  unfold rankMultiset
  rw [Nat.Icc_eq_range']
  have h1 : s * s + 1 - 1 = s * s := by omega
  have h2 : (List.range' 1 (s * s)).map (fun i : Nat => (i : ℚ)) =
      (List.range (s * s)).map fun i => ((i + 1 : Nat) : ℚ) := by
    rw [List.range'_eq_map_range, List.map_map]
    refine List.map_congr_left fun i _ => ?_
    simp [Nat.add_comm]
  calc (⟨List.range' 1 (s * s + 1 - 1), List.nodup_range' _ _⟩ : Finset Nat).val.map
        (fun i : Nat => (i : ℚ))
      = (↑(List.range' 1 (s * s)) : Multiset Nat).map (fun i : Nat => (i : ℚ)) := by
        rw [h1]
    _ = ↑((List.range' 1 (s * s)).map fun i : Nat => (i : ℚ)) := Multiset.map_coe _ _
    _ = ↑((List.range (s * s)).map fun i => ((i + 1 : Nat) : ℚ)) := by rw [h2]
    _ = Multiset.map (fun i => ((i + 1 : Nat) : ℚ)) (Multiset.range (s * s)) := by
        rw [← Multiset.map_coe, Multiset.coe_range]

theorem colList_rankMultiset (rng : Rng) (hwf : RngWf rng) (s : Nat) (hs : 0 < s)
    (c : Nat) : (↑(colList rng s c) : Multiset ℚ) = rankMultiset s := by
  rw [colList_multiset rng hwf s hs c, sum_rankBlock, rankMultiset_eq]

theorem colList_mem_bound (rng : Rng) (hwf : RngWf rng) (s : Nat) (hs : 0 < s)
    (c : Nat) : ∀ a ∈ colList rng s c, a ≤ ((s * s : Nat) : ℚ) := by
  intro a ha
  have h2 : a ∈ (↑(colList rng s c) : Multiset ℚ) := Multiset.mem_coe.2 ha
  rw [colList_rankMultiset rng hwf s hs c, rankMultiset_eq] at h2
  obtain ⟨i, hi, hval⟩ := Multiset.mem_map.1 h2
  rw [← hval]
  exact_mod_cast Multiset.mem_range.1 hi

theorem colList_mem_one_le (rng : Rng) (hwf : RngWf rng) (s : Nat) (hs : 0 < s)
    (c : Nat) : ∀ a ∈ colList rng s c, 1 ≤ a := by
  intro a ha
  have h2 : a ∈ (↑(colList rng s c) : Multiset ℚ) := Multiset.mem_coe.2 ha
  rw [colList_rankMultiset rng hwf s hs c, rankMultiset_eq] at h2
  obtain ⟨i, _, hval⟩ := Multiset.mem_map.1 h2
  rw [← hval]
  exact_mod_cast Nat.succ_le_succ (Nat.zero_le i)

theorem maxLh_eq (rng : Rng) (hwf : RngWf rng) (s : Nat) (hs : 0 < s) :
    maxLh rng s = ((s * s : Nat) : ℚ) := by
  have hmax : (lhEntries rng s).maximum = (((s * s : Nat) : ℚ) : WithBot ℚ) := by
    rw [List.maximum_eq_coe_iff]
    constructor
    · have hpos : 0 < s * s := Nat.mul_pos hs hs
      have h2 : ((s * s : Nat) : ℚ) ∈ (↑(colList rng s 0) : Multiset ℚ) := by
        rw [colList_rankMultiset rng hwf s hs 0, rankMultiset_eq]
        refine Multiset.mem_map.2 ⟨s * s - 1, Multiset.mem_range.2 (by omega), ?_⟩
        have h3 : s * s - 1 + 1 = s * s := by omega
        rw [h3]
      exact List.mem_append.2 (Or.inl (Multiset.mem_coe.1 h2))
    · intro a ha
      rcases List.mem_append.1 ha with h | h
      · exact colList_mem_bound rng hwf s hs 0 a h
      · exact colList_mem_bound rng hwf s hs 1 a h
  rw [maxLh, hmax]
  rfl

theorem lhEntry_mem_colList (rng : Rng) (s p c : Nat) (hp : p < s * s) :
    lhEntry rng s p c ∈ colList rng s c :=
  List.mem_map.2 ⟨p, List.mem_range.2 hp, rfl⟩

theorem jitterEntry_bounds (rng : Rng) (hwf : RngWf rng) (s : Nat) (hs : 0 < s)
    (p c : Nat) (hp : p < s * s) :
    0 < jitterEntry rng s p c ∧ jitterEntry rng s p c ≤ 1 := by
  have hmem := lhEntry_mem_colList rng s p c hp
  have he1 : 1 ≤ lhEntry rng s p c := colList_mem_one_le rng hwf s hs c _ hmem
  have he2 : lhEntry rng s p c ≤ ((s * s : Nat) : ℚ) :=
    colList_mem_bound rng hwf s hs c _ hmem
  have hu := hwf.2 p c
  have hMpos : (0 : ℚ) < ((s * s : Nat) : ℚ) := by
    exact_mod_cast Nat.mul_pos hs hs
  rw [jitterEntry, maxLh_eq rng hwf s hs]
  constructor
  · apply div_pos _ hMpos
    linarith [hu.2]
  · rw [div_le_one hMpos]
    linarith [hu.1]

/-- Claim C9: the full Cartesian product is always enumerated, so every level
`k ∈ 1..s` appears exactly `s` times in each column, every stratum block has
exactly `s` ranks, and the single normalizing scalar `np.max(lh)` (shared by
both axes) always equals `s²` — the under-filled-stratum scenario never
occurs, for perfect squares and non-squares alike. -/
theorem orthogonal_balanced_strata (n : ℤ) (rng : Rng) (hn : 0 < n)
    (hwf : RngWf rng) :
    (∀ c k, 1 ≤ k → k ≤ ceilSqrt n.toNat →
      (idxList (ceilSqrt n.toNat) c k).length = ceilSqrt n.toNat) ∧
    maxLh rng (ceilSqrt n.toNat) = ((ceilSqrt n.toNat * ceilSqrt n.toNat : Nat) : ℚ) := by
  have hs : 0 < ceilSqrt n.toNat := ceilSqrt_pos (by omega)
  exact ⟨fun c k hk1 hks => idxList_length _ c k hk1 hks, maxLh_eq rng hwf _ hs⟩

/-- Witness for C9 at `n_samples = 2` with the identity-shuffle rng. -/
theorem orthogonal_balanced_strata_witness :
    maxLh trivialRng (ceilSqrt (Int.toNat 2)) =
      ((ceilSqrt (Int.toNat 2) * ceilSqrt (Int.toNat 2) : Nat) : ℚ) :=
  (orthogonal_balanced_strata 2 trivialRng (by decide) trivialRng_wf).2

/-- Claim C1: for every `n_samples > 0` and well-behaved rng, each of the two
rank columns of `lh` (before jitter) realizes the multiset `{1, ..., s²}`
exactly — no rank repeated or missing — and the ranks of the cells at level
`k` of a column are exactly the block `(k-1)*s + 1 .. (k-1)*s + cnt` (with
`cnt` the number of such cells), permuted only within that block. -/
theorem orthogonal_rank_stratification (n : ℤ) (rng : Rng) (hn : 0 < n)
    (hwf : RngWf rng) :
    (∀ c, c < 2 → (↑(colList rng (ceilSqrt n.toNat) c) : Multiset ℚ) =
      rankMultiset (ceilSqrt n.toNat)) ∧
    ∀ c k, c < 2 → 1 ≤ k → k ≤ ceilSqrt n.toNat →
      (↑((idxList (ceilSqrt n.toNat) c k).map
          fun p => lhEntry rng (ceilSqrt n.toNat) p c) : Multiset ℚ) =
        ↑(rankBlock (ceilSqrt n.toNat) k (idxList (ceilSqrt n.toNat) c k).length) := by
  have hs : 0 < ceilSqrt n.toNat := ceilSqrt_pos (by omega)
  refine ⟨fun c _ => colList_rankMultiset rng hwf _ hs c, fun c k _ _ _ => ?_⟩
  rw [entries_at_level rng hwf _ k c]
  exact Multiset.coe_eq_coe.2 (hwf.1 c k _)

/-- Witness for C1 at `n_samples = 2`, column 0, with the identity-shuffle rng. -/
theorem orthogonal_rank_stratification_witness :
    (↑(colList trivialRng (ceilSqrt (Int.toNat 2)) 0) : Multiset ℚ) =
      rankMultiset (ceilSqrt (Int.toNat 2)) :=
  (orthogonal_rank_stratification 2 trivialRng (by decide) trivialRng_wf).1 0
    (by decide)

/-! ## C2/C5: output size and coordinate ranges -/

theorem orthogonal_sampler_2d_ok (rng : Rng) (n : ℤ) (hn : 0 < n) :
    orthogonal_sampler_2d rng n =
      .ok ((List.range (ceilSqrt n.toNat * ceilSqrt n.toNat)).map
        fun p => (jitterEntry rng (ceilSqrt n.toNat) p 0,
          jitterEntry rng (ceilSqrt n.toNat) p 1)) := by
  have hs : ceilSqrt n.toNat ≠ 0 := (ceilSqrt_pos (by omega)).ne'
  rw [orthogonal_sampler_2d, if_neg (by omega : ¬ n < 0)]
  simp only [if_neg hs]

/-- Claim C5 (amended): before rescaling, every jittered coordinate produced
by `orthogonal_sampler_2d` lies in the half-open interval `(0, 1]`: it is
always strictly positive (exactly 0 never occurs), and it is at most 1, the
value 1 being attained when a uniform offset is exactly 0 at a maximal-rank
cell. -/
theorem jitter_in_unit_interval (n : ℤ) (rng : Rng) (hn : 0 < n) (hwf : RngWf rng) :
    ∀ pts, orthogonal_sampler_2d rng n = .ok pts →
      ∀ q ∈ pts, (0 < q.1 ∧ q.1 ≤ 1) ∧ 0 < q.2 ∧ q.2 ≤ 1 := by
  intro pts hpts q hq
  have hs : 0 < ceilSqrt n.toNat := ceilSqrt_pos (by omega)
  rw [orthogonal_sampler_2d_ok rng n hn] at hpts
  have hpts' : pts = (List.range (ceilSqrt n.toNat * ceilSqrt n.toNat)).map
      fun p => (jitterEntry rng (ceilSqrt n.toNat) p 0,
        jitterEntry rng (ceilSqrt n.toNat) p 1) :=
    (Except.ok.inj hpts).symm
  rw [hpts'] at hq
  obtain ⟨p, hp, rfl⟩ := List.mem_map.1 hq
  have hp' : p < ceilSqrt n.toNat * ceilSqrt n.toNat := List.mem_range.1 hp
  exact ⟨jitterEntry_bounds rng hwf _ hs p 0 hp',
    jitterEntry_bounds rng hwf _ hs p 1 hp'⟩

theorem ceilSqrt_one : ceilSqrt 1 = 1 := by
  simp [ceilSqrt, Nat.sqrt_one]

theorem orth_one_eval : orthogonal_sampler_2d trivialRng 1 = .ok [(1, 1)] := by
  have hE0 : lhEntry trivialRng 1 0 0 = 1 := by decide
  have hE1 : lhEntry trivialRng 1 0 1 = 1 := by decide
  have hM : maxLh trivialRng 1 = ((1 * 1 : Nat) : ℚ) :=
    maxLh_eq trivialRng trivialRng_wf 1 one_pos
  have hu : ∀ c, trivialRng.unif 0 c = 0 := fun _ => rfl
  have hJ : ∀ c, lhEntry trivialRng 1 0 c = 1 →
      jitterEntry trivialRng 1 0 c = 1 := by
    intro c hc
    rw [jitterEntry, hc, hu c, hM]
    norm_num
  rw [orthogonal_sampler_2d_ok trivialRng 1 (by decide)]
  rw [show Int.toNat 1 = 1 from rfl, ceilSqrt_one]
  rw [show (1 * 1 : Nat) = 1 from rfl, show List.range 1 = [0] from rfl,
    List.map_singleton]
  rw [hJ 0 hE0, hJ 1 hE1]

/-- Counterexample to C5 as stated: with the legal rng whose uniform draws are
all 0 (each draw lies in `[0, 1)`), `n_samples = 1` produces the jittered
coordinate exactly 1, which is neither strictly inside `(0, 1)` nor the
exact 0 that the claim's degenerate-edge-case clause would allow. -/
theorem jitter_reaches_one :
    RngWf trivialRng ∧ orthogonal_sampler_2d trivialRng 1 = .ok [(1, 1)] ∧
      ¬ ((1 : ℚ) < 1) ∧ (1 : ℚ) ≠ 0 :=
  ⟨trivialRng_wf, orth_one_eval, by norm_num, by norm_num⟩

/-- Witness for the amended C5 at `n_samples = 1`. -/
theorem jitter_in_unit_interval_witness :
    (0 < (1 : ℚ) ∧ (1 : ℚ) ≤ 1) ∧ 0 < (1 : ℚ) ∧ (1 : ℚ) ≤ 1 :=
  jitter_in_unit_interval 1 trivialRng (by decide) trivialRng_wf [(1, 1)]
    orth_one_eval (1, 1) (List.mem_singleton.2 rfl)

/-- Claim C2: for every `n_samples > 0`, `orthogonal_sampler` (the
`OrthogonalArraySampler.generate` of the spec) succeeds with exactly
`ceil(sqrt(n_samples))²` points, and after rescaling every x coordinate lies
within `[lows.1, highs.1]` and every y coordinate within `[lows.2, highs.2]`. -/
theorem orthogonal_sampler_output (n : ℤ) (rng : Rng) (lows highs : ℚ × ℚ)
    (hn : 0 < n) (hwf : RngWf rng) (hx : lows.1 ≤ highs.1) (hy : lows.2 ≤ highs.2) :
    ∃ pts, orthogonal_sampler rng lows highs n = .ok pts ∧
      pts.length = ceilSqrt n.toNat * ceilSqrt n.toNat ∧
      ∀ q ∈ pts, lows.1 ≤ q.1 ∧ q.1 ≤ highs.1 ∧ lows.2 ≤ q.2 ∧ q.2 ≤ highs.2 := by
  have hs : 0 < ceilSqrt n.toNat := ceilSqrt_pos (by omega)
  refine ⟨((List.range (ceilSqrt n.toNat * ceilSqrt n.toNat)).map
      fun p => (jitterEntry rng (ceilSqrt n.toNat) p 0,
        jitterEntry rng (ceilSqrt n.toNat) p 1)).map
      (fun q => ((highs.1 - lows.1) * q.1 + lows.1,
        (highs.2 - lows.2) * q.2 + lows.2)), ?_, ?_, ?_⟩
  · rw [orthogonal_sampler, orthogonal_sampler_2d_ok rng n hn]
  · simp
  · intro q hq
    obtain ⟨q0, hq0, rfl⟩ := List.mem_map.1 hq
    obtain ⟨p, hp, rfl⟩ := List.mem_map.1 hq0
    have hp' : p < ceilSqrt n.toNat * ceilSqrt n.toNat := List.mem_range.1 hp
    have hb0 := jitterEntry_bounds rng hwf _ hs p 0 hp'
    have hb1 := jitterEntry_bounds rng hwf _ hs p 1 hp'
    have hx0 : 0 ≤ highs.1 - lows.1 := sub_nonneg.2 hx
    have hy0 : 0 ≤ highs.2 - lows.2 := sub_nonneg.2 hy
    have c10 : 0 ≤ (highs.1 - lows.1) * jitterEntry rng (ceilSqrt n.toNat) p 0 :=
      mul_nonneg hx0 hb0.1.le
    have c11 : (highs.1 - lows.1) * jitterEntry rng (ceilSqrt n.toNat) p 0 ≤
        highs.1 - lows.1 := by
      calc (highs.1 - lows.1) * jitterEntry rng (ceilSqrt n.toNat) p 0
          ≤ (highs.1 - lows.1) * 1 := mul_le_mul_of_nonneg_left hb0.2 hx0
        _ = highs.1 - lows.1 := mul_one _
    have c20 : 0 ≤ (highs.2 - lows.2) * jitterEntry rng (ceilSqrt n.toNat) p 1 :=
      mul_nonneg hy0 hb1.1.le
    have c21 : (highs.2 - lows.2) * jitterEntry rng (ceilSqrt n.toNat) p 1 ≤
        highs.2 - lows.2 := by
      calc (highs.2 - lows.2) * jitterEntry rng (ceilSqrt n.toNat) p 1
          ≤ (highs.2 - lows.2) * 1 := mul_le_mul_of_nonneg_left hb1.2 hy0
        _ = highs.2 - lows.2 := mul_one _
    dsimp only
    refine ⟨by linarith, by linarith, by linarith, by linarith⟩

/-- Witness for C2 at `n_samples = 1` over the unit square. -/
theorem orthogonal_sampler_output_witness :
    ∃ pts, orthogonal_sampler trivialRng (0, 0) (1, 1) 1 = .ok pts ∧
      pts.length = ceilSqrt (Int.toNat 1) * ceilSqrt (Int.toNat 1) ∧
      ∀ q ∈ pts, (0 : ℚ) ≤ q.1 ∧ q.1 ≤ 1 ∧ (0 : ℚ) ≤ q.2 ∧ q.2 ≤ 1 :=
  orthogonal_sampler_output 1 trivialRng (0, 0) (1, 1) (by decide) trivialRng_wf
    (by decide) (by decide)

end StochSim
